import Mathlib

/-!
# Verification of the openDCM ClusterGraph core
  (src/Mod/Assembly/App/opendcm/core/clustergraph.hpp)

This file gives a shallow embedding of the identifier generator `details::IDgen`,
of the global edge descriptor `GlobalEdge`, and of the cluster-tree operations of
`ClusterGraph`, and proves the specified properties about them.

`universalID` is `int` in the source; it is modelled as `Int` (unbounded).
Signed-integer overflow of the C++ `int` counter is undefined behaviour and
outside this model.
-/

namespace ClusterSpec

/-- `details::universalID` — the identifier type, `typedef int universalID`. -/
abbrev universalID := Int

/-- `details::IDgen` — the generator state holds the single counter
`universalID* counter`; the default constructor sets it to 10. -/
structure IDgen where
  counter : universalID
deriving Repr, DecidableEq

/-- `IDgen()` — default constructor: `counter = new universalID(10)`. -/
def IDgen.init : IDgen := ⟨10⟩

/-- `IDgen::generate()` — `return ++(*counter)`: pre-increment, then the new
counter value is returned.  The model returns the new state and the value. -/
def IDgen.generate (g : IDgen) : IDgen × universalID :=
  (⟨g.counter + 1⟩, g.counter + 1)

/-- `IDgen::count()` — `return (*counter)`. -/
def IDgen.count (g : IDgen) : universalID :=
  g.counter

/-- `IDgen::setCount(universalID id)` — `*counter = id`, an unconditional
assignment. -/
def IDgen.setCount (_g : IDgen) (id : universalID) : IDgen :=
  ⟨id⟩

/-- The generator state after `n` calls to `generate()` on a fresh generator
(no `setCount` in between). -/
def genSeq : Nat → IDgen
  | 0 => IDgen.init
  | n + 1 => ((genSeq n).generate).1

/-- The generator state after `n` calls to `generate()` starting from an
arbitrary state `g` (no `setCount` in between). -/
def genIter (g : IDgen) : Nat → IDgen
  | 0 => g
  | n + 1 => ((genIter g n).generate).1

theorem genSeq_counter (n : Nat) : (genSeq n).counter = 10 + n := by
  induction n with
  | zero => rfl
  | succ n ih => simp [genSeq, IDgen.generate, ih]; ring

theorem genIter_counter (g : IDgen) (n : Nat) :
    (genIter g n).counter = g.counter + n := by
  induction n with
  | zero => simp [genIter]
  | succ n ih => simp [genIter, IDgen.generate, ih]; ring

end ClusterSpec

namespace ClusterSpec

/-- `GlobalEdge` — holds global source and target vertices and a
`universalID ID`. -/
structure GlobalEdge where
  source : universalID
  target : universalID
  ID : universalID
deriving Repr, DecidableEq

/-- `GlobalEdge::operator==` — `return ID == second.ID`. -/
def GlobalEdge.eqOp (a b : GlobalEdge) : Bool :=
  a.ID == b.ID

/-- `GlobalEdge::operator!=` — `return ID != second.ID`. -/
def GlobalEdge.neOp (a b : GlobalEdge) : Bool :=
  a.ID != b.ID

/-- `GlobalEdge::valid()` — `return ID > 9`. -/
def GlobalEdge.valid (e : GlobalEdge) : Bool :=
  e.ID > 9

end ClusterSpec

namespace ClusterSpec

/-- **C1** — On a tree's shared generator (created by the root cluster's
default constructor, counter 10), every call to `generate()` succeeds (the
model is total), returns a value strictly greater than 9, and is strictly
greater than the value of every earlier `generate()` call, provided no
`setCount` intervened: the value of call `n+1` on a fresh generator exceeds 9
and exceeds the value of every earlier call `m+1` with `m < n`. -/
theorem generate_monotone_above_reserved (n : Nat) :
    ((genSeq n).generate).2 > 9 ∧
      ∀ m : Nat, m < n → ((genSeq m).generate).2 < ((genSeq n).generate).2 := by
  constructor
  · simp [IDgen.generate, genSeq_counter]
    have h : (0 : Int) ≤ (n : Int) := Int.natCast_nonneg n
    linarith
  · intro m hm
    simp [IDgen.generate, genSeq_counter]
    have h : (m : Int) < (n : Int) := by exact_mod_cast hm
    linarith

theorem generate_monotone_above_reserved_witness :
    ((genSeq 2).generate).2 > 9 ∧
      ((genSeq 1).generate).2 < ((genSeq 2).generate).2 :=
  ⟨(generate_monotone_above_reserved 2).1,
   (generate_monotone_above_reserved 2).2 1 (by decide)⟩

/-- **C2** — `GlobalEdge` equality holds exactly when the `ID` fields agree
(the `source` and `target` fields play no role), and `valid()` returns true
exactly when `ID > 9`. -/
theorem globalEdge_eq_and_valid (a b e : GlobalEdge) :
    (a.eqOp b = true ↔ a.ID = b.ID) ∧ (e.valid = true ↔ e.ID > 9) := by
  constructor
  · simp [GlobalEdge.eqOp]
  · simp [GlobalEdge.valid]

theorem globalEdge_eq_and_valid_witness :
    ((GlobalEdge.mk 1 2 10).eqOp (GlobalEdge.mk 3 4 10) = true ↔
        (10 : Int) = 10) ∧
      ((GlobalEdge.mk 1 2 10).valid = true ↔ (10 : Int) > 9) :=
  globalEdge_eq_and_valid ⟨1, 2, 10⟩ ⟨3, 4, 10⟩ ⟨1, 2, 10⟩

/-- **C3** — In every generator state, after a `generate()` call `count()`
returns exactly the value that call returned: `count` reads the counter the
pre-increment of `generate` just wrote. -/
theorem count_is_last_generated (g : IDgen) :
    ((g.generate).1).count = (g.generate).2 := by
  simp [IDgen.generate, IDgen.count]

/-- **C4** — After `setCount n`, every subsequently generated id is strictly
greater than `n`: the value of the `k+1`-st `generate()` call after
`setCount n` is `n + k + 1 > n`. -/
theorem setCount_future_ids_disjoint (g : IDgen) (n : universalID) (k : Nat) :
    ((genIter (g.setCount n) k).generate).2 > n := by
  simp [IDgen.generate, IDgen.setCount, genIter_counter]
  have h : (0 : Int) ≤ (k : Int) := Int.natCast_nonneg k
  linarith

/-- **C10** — `setCount n` assigns the counter unconditionally, so `count`
returns `n` afterwards for every `n`; when `n` is strictly below the current
counter, `count()` decreases and the next `generate()` returns `n + 1`; in
particular on a fresh generator two `generate()` calls return 11 and 12, and
after `setCount 10` the next `generate()` returns 11 again — an id already
issued, so `setCount` is not monotone and can break uniqueness. -/
theorem setCount_unconditional_can_collide (g : IDgen) (n : universalID)
    (hlt : n < g.count) :
    (g.setCount n).count = n ∧
      (g.setCount n).count < g.count ∧
      (((g.setCount n).generate)).2 = n + 1 ∧
      ((genSeq 1).generate).2 = 12 ∧
      ((genSeq 0).generate).2 = 11 ∧
      (((genSeq 2).setCount 10).generate).2 = 11 := by
  refine ⟨rfl, ?_, rfl, ?_, ?_, ?_⟩
  · simpa [IDgen.setCount, IDgen.count] using hlt
  · simp [genSeq, IDgen.generate, IDgen.init]
  · simp [genSeq, IDgen.generate, IDgen.init]
  · simp [IDgen.setCount, IDgen.generate]

theorem setCount_unconditional_can_collide_witness :
    ((IDgen.mk 20).setCount 10).count = 10 ∧
      ((IDgen.mk 20).setCount 10).count < (IDgen.mk 20).count ∧
      ((((IDgen.mk 20).setCount 10)).generate).2 = 10 + 1 ∧
      ((genSeq 1).generate).2 = 12 ∧
      ((genSeq 0).generate).2 = 11 ∧
      (((genSeq 2).setCount 10).generate).2 = 11 :=
  setCount_unconditional_can_collide ⟨20⟩ 10 (by decide)

end ClusterSpec

namespace ClusterSpec

/-!
## The cluster tree

The bodies of the `ClusterGraph` member functions live in
`imp/clustergraph_imp.hpp`, which is not part of the available sources; only
their declarations and documentation in `clustergraph.hpp` are.  The
definitions below are therefore modelled from the specification's
descriptions of the data model (§3) and of the operations (§4.4–§4.7),
with the types (`vertex_bundle`, `edge_bundle`, `edge_bundle_single`,
`ClusterMap`) taken from the header.  Property and object slots are
abstracted into a single opaque payload value per slot kind.
-/

/-- Modelled from the spec: the payload of the property/object slots of a
bundle.  The concrete slot types are externally supplied (§1, out of scope);
only their values' preservation matters here, so they are abstracted into one
opaque value. -/
abbrev PropVal := Int

/-- Modelled from the spec: `vertex_bundle` — `(GlobalVertex, property slots,
object slots)`, one per local vertex (§3, header line 287). -/
structure VB where
  gid : universalID
  prop : PropVal
deriving Repr, DecidableEq

/-- Modelled from the spec: `edge_bundle_single` — `(object slots,
GlobalEdge)`, one per aggregated global edge (§3, header line 267). -/
structure ESingle where
  prop : PropVal
  ge : GlobalEdge
deriving Repr, DecidableEq

/-- Modelled from the spec: `edge_bundle` — a local edge with its two
endpoint handles, its property slots and the ordered list of aggregated
`edge_bundle_single` entries (§3, header line 275).  Local edges are
undirected, so `src`/`trg` are interchangeable. -/
structure ERec where
  src : Nat
  trg : Nat
  prop : PropVal
  singles : List ESingle
deriving Repr, DecidableEq

mutual
/-- Modelled from the spec: a `ClusterGraph` — the per-cluster local storage
(vertex bundles keyed by local handle, local edges) together with the
`ClusterMap` from cluster-vertex handles to child clusters (§3 "Cluster",
header line 305).  `nextL` is the allocator for fresh local handles; the
tree-shared id counter is threaded separately, mirroring the shared `IDgen`. -/
inductive CTree where
  | node : Nat → List (Nat × VB) → List ERec → CForest → CTree

/-- Modelled from the spec: the `ClusterMap` of a cluster — an association of
local cluster-vertex handles to child clusters. -/
inductive CForest where
  | fnil : CForest
  | fcons : Nat → CTree → CForest → CForest
end

/-- Local handle allocator of the root node. -/
def CTree.nextL : CTree → Nat
  | .node nl _ _ _ => nl

/-- Vertex bundles of the root node. -/
def CTree.verts : CTree → List (Nat × VB)
  | .node _ vs _ _ => vs

/-- Local edges of the root node. -/
def CTree.edges : CTree → List ERec
  | .node _ _ es _ => es

/-- Subcluster map of the root node. -/
def CTree.subs : CTree → CForest
  | .node _ _ _ f => f

/-- Look up the child cluster registered under a cluster-vertex handle. -/
def lookupF : CForest → Nat → Option CTree
  | .fnil, _ => none
  | .fcons k t f, v => if k == v then some t else lookupF f v

/-- Erase the (first) child-cluster entry with the given handle. -/
def removeF : CForest → Nat → CForest
  | .fnil, _ => .fnil
  | .fcons k t f, v => if k == v then f else .fcons k t (removeF f v)

/-- Erase the (first) vertex bundle with the given local handle. -/
def erasePV (vs : List (Nat × VB)) (v : Nat) : List (Nat × VB) :=
  vs.eraseP (fun p => p.1 == v)

/-- Look up the bundle of a local vertex handle. -/
def findVB (vs : List (Nat × VB)) (v : Nat) : Option VB :=
  (vs.find? (fun p => p.1 == v)).map (fun p => p.2)

/-- The `(global id, property value)` view of a vertex-bundle list. -/
def vmap (vs : List (Nat × VB)) : List (universalID × PropVal) :=
  vs.map (fun p => (p.2.gid, p.2.prop))

/-- All aggregated `edge_bundle_single` entries of a local-edge list. -/
def singlesOf : List ERec → List ESingle
  | [] => []
  | e :: rest => e.singles ++ singlesOf rest

mutual
/-- All global vertices (with their property values) reachable from a
cluster, its own plus those of every subcluster. -/
def gverts : CTree → List (universalID × PropVal)
  | .node _ vs _ f => vmap vs ++ gvertsF f

def gvertsF : CForest → List (universalID × PropVal)
  | .fnil => []
  | .fcons _ t f => gverts t ++ gvertsF f
end

mutual
/-- All aggregated global edges reachable from a cluster, its own plus those
of every subcluster. -/
def gedges : CTree → List ESingle
  | .node _ _ es f => singlesOf es ++ gedgesF f

def gedgesF : CForest → List ESingle
  | .fnil => []
  | .fcons _ t f => gedges t ++ gedgesF f
end

mutual
/-- Whether a global vertex id occurs anywhere in the cluster subtree. -/
def containsG : CTree → universalID → Bool
  | .node _ vs _ f, g => vs.any (fun p => p.2.gid == g) || containsGF f g

def containsGF : CForest → universalID → Bool
  | .fnil, _ => false
  | .fcons _ t f, g => containsG t g || containsGF f g
end

/-- Modelled from the spec: the recursive part of `getLocalVertex` /
`getContainingVertex` (§4.4) — if the global vertex lives inside a
subcluster, the handle returned is the ancestor cluster-vertex in the
caller's own scope. -/
def findSubF : CForest → universalID → Option Nat
  | .fnil, _ => none
  | .fcons k t f, g => if containsG t g then some k else findSubF f g

/-- Modelled from the spec: `getLocalVertex(GlobalVertex)` (header lines
747–756, §4.4 `localOf`) — searches the calling cluster's own vertices first;
when found in a subcluster instead, the returned handle is the cluster-vertex
representing that subcluster; fails (`none`) when the id is absent from the
whole subtree. -/
def getLocalVertex (t : CTree) (g : universalID) : Option Nat :=
  match t with
  | .node _ vs _ f =>
    match (vs.find? (fun p => p.2.gid == g)).map (fun p => p.1) with
    | some v => some v
    | none => findSubF f g

/-- Result of `addVertex()`: the updated cluster, the updated shared counter
and the `fusion::vector<LocalVertex, GlobalVertex>` return value. -/
structure AVResult where
  tree : CTree
  cnt : universalID
  lv : Nat
  gv : universalID

/-- Modelled from the spec: `addVertex()` (header lines 613–618, §4.6) —
mints a fresh GlobalVertex from the shared generator (`++counter`), inserts a
fresh bundle with default property slots, and returns the local and global
descriptors. -/
def addVertex (t : CTree) (cnt : universalID) : AVResult :=
  match t with
  | .node nl vs es f =>
    ⟨.node (nl + 1) (vs ++ [(nl, ⟨cnt + 1, 0⟩)]) es f, cnt + 1, nl, cnt + 1⟩

/-- Whether the (undirected) local edge connects the two given handles. -/
def sameEnds (e : ERec) (a b : Nat) : Bool :=
  (e.src == a && e.trg == b) || (e.src == b && e.trg == a)

/-- Whether the local edge is incident to the given handle. -/
def touches (e : ERec) (v : Nat) : Bool :=
  e.src == v || e.trg == v

/-- The endpoint of the edge other than `v` (undirected). -/
def otherEnd (e : ERec) (v : Nat) : Nat :=
  if e.src == v then e.trg else e.src

/-- Modelled from the spec: parallel-edge aggregation (§4.6) — if a local
edge already connects the pair, the new `edge_bundle_single` is appended to
its aggregated list; otherwise a new local edge is created holding the one
entry (its property slots default-constructed). -/
def insertSingle : List ERec → Nat → Nat → ESingle → List ERec
  | [], a, b, s => [⟨a, b, 0, [s]⟩]
  | e :: rest, a, b, s =>
    if sameEnds e a b then ⟨e.src, e.trg, e.prop, e.singles ++ [s]⟩ :: rest
    else e :: insertSingle rest a b s

/-- `insertSingle` iterated over a list of entries. -/
def insertSingles : List ERec → Nat → Nat → List ESingle → List ERec
  | es, _, _, [] => es
  | es, a, b, s :: rest => insertSingles (insertSingle es a b s) a b rest

/-- The invalid `GlobalEdge` value returned by a failing `addEdge` (its id is
in the reserved range, so `valid()` is false). -/
def invalidGE : GlobalEdge := ⟨0, 0, 0⟩

/-- Result of `addEdge(LocalVertex, LocalVertex)`: the updated cluster, the
updated shared counter and the `fusion::vector<LocalEdge, GlobalEdge, bool>`
return value.  A local edge is identified by its endpoint pair. -/
structure AEResult where
  tree : CTree
  cnt : universalID
  le : Nat × Nat
  ge : GlobalEdge
  success : Bool

/-- Modelled from the spec: `addEdge(LocalVertex, LocalVertex)` (header lines
655–668, §4.6) — fails (returning `success = false` with the state unchanged)
if the handles are equal, if either does not resolve to a vertex of this
cluster, or if either represents a subcluster (header: "The LocalVertex
parameters should not represent a cluster which would result in the functions
failure").  On success a fresh `GlobalEdge` carrying the endpoints' global
ids and a newly generated id is aggregated onto the connecting local edge,
which is created when absent. -/
def addEdge (t : CTree) (cnt : universalID) (a b : Nat) : AEResult :=
  match t with
  | .node nl vs es f =>
    if a == b then ⟨.node nl vs es f, cnt, (a, b), invalidGE, false⟩
    else
      match findVB vs a, findVB vs b with
      | some va, some vb =>
        if (lookupF f a).isSome || (lookupF f b).isSome then
          ⟨.node nl vs es f, cnt, (a, b), invalidGE, false⟩
        else
          ⟨.node nl vs (insertSingle es a b ⟨0, ⟨va.gid, vb.gid, cnt + 1⟩⟩) f,
            cnt + 1, (a, b), ⟨va.gid, vb.gid, cnt + 1⟩, true⟩
      | _, _ => ⟨.node nl vs es f, cnt, (a, b), invalidGE, false⟩

/-- Modelled from the spec: `getGlobalEdgeCount(LocalEdge)` (header lines
704–714) — the number of aggregated global edges held by the local edge. -/
def getGlobalEdgeCount (t : CTree) (le : Nat × Nat) : Nat :=
  match (t.edges).find? (fun e => sameEnds e le.1 le.2) with
  | some e => e.singles.length
  | none => 0

/-- Whether the local edge aggregates an entry for the given global edge,
compared with `GlobalEdge::operator==`, i.e. by id alone. -/
def hasGE (e : ERec) (g : GlobalEdge) : Bool :=
  e.singles.any (fun s => s.ge.eqOp g)

/-- Whether some local edge of the list aggregates the given global edge. -/
def containsGE (es : List ERec) (g : GlobalEdge) : Bool :=
  es.any (fun e => hasGE e g)

/-- Modelled from the spec: the per-cluster step of `removeEdge(GlobalEdge)`
(§4.6) — in the first local edge aggregating the global edge, drop the
matching aggregated entries; if the aggregated list becomes empty the local
edge itself is removed, otherwise it persists with its remaining entries. -/
def removeGE : List ERec → GlobalEdge → List ERec
  | [], _ => []
  | e :: rest, g =>
    if hasGE e g then
      let s' := e.singles.filter (fun s => ! s.ge.eqOp g)
      if s'.isEmpty then rest else ⟨e.src, e.trg, e.prop, s'⟩ :: rest
    else e :: removeGE rest g

mutual
/-- Whether the global edge is aggregated anywhere in the subtree. -/
def treeHasGE : CTree → GlobalEdge → Bool
  | .node _ _ es f, g => containsGE es g || forestHasGE f g

def forestHasGE : CForest → GlobalEdge → Bool
  | .fnil, _ => false
  | .fcons _ t f, g => treeHasGE t g || forestHasGE f g
end

mutual
/-- Modelled from the spec: `removeEdge(GlobalEdge)` (header lines 813–822,
§4.6) — locates the owning local edge anywhere in the subtree and drops only
that aggregated entry; the local edge itself is removed exactly when the
entry was its last one. -/
def removeEdge : CTree → GlobalEdge → CTree
  | .node nl vs es f, g =>
    if containsGE es g then .node nl vs (removeGE es g) f
    else .node nl vs es (removeEdgeF f g)

def removeEdgeF : CForest → GlobalEdge → CForest
  | .fnil, _ => .fnil
  | .fcons k t f, g =>
    if treeHasGE t g then .fcons k (removeEdge t g) f
    else .fcons k t (removeEdgeF f g)
end

/-- Replace the (first) child-cluster entry with the given handle by a new
subtree. -/
def replaceF : CForest → Nat → CTree → CForest
  | .fnil, _, _ => .fnil
  | .fcons k2 t f, k, t2 =>
    if k2 == k then .fcons k2 t2 f else .fcons k2 t (replaceF f k t2)

/-- The cluster reached from `t` by following the given chain of
cluster-vertex handles downward; `none` when the chain is invalid.  This
names a position anywhere in the subtree, as the recursive search of
`removeEdge` traverses it. -/
def clusterAt : CTree → List Nat → Option CTree
  | t, [] => some t
  | .node _ _ _ f, k :: ks =>
    match lookupF f k with
    | none => none
    | some C => clusterAt C ks

/-- Rebuild the tree with the cluster at the given chain of cluster-vertex
handles replaced by a new subtree (identity on an invalid chain). -/
def replaceAt : CTree → List Nat → CTree → CTree
  | _, [], t2 => t2
  | .node nl vs es f, k :: ks, t2 =>
    match lookupF f k with
    | none => .node nl vs es f
    | some C => .node nl vs es (replaceF f k (replaceAt C ks t2))

/-- A small concrete cluster used to instantiate the witnesses: two ordinary
vertices with global ids 10 and 11, no edges, no subclusters, all ids ≤ 11
already minted. -/
def sampleTree : CTree :=
  .node 2 [(0, ⟨10, 0⟩), (1, ⟨11, 0⟩)] [] .fnil

end ClusterSpec

namespace ClusterSpec

theorem insertSingle_not_found (es : List ERec) (a b : Nat) (s : ESingle)
    (h : ∀ e ∈ es, sameEnds e a b = false) :
    insertSingle es a b s = es ++ [⟨a, b, 0, [s]⟩] := by
  induction es with
  | nil => rfl
  | cons e rest ih =>
    have he := h e (by simp)
    simp only [insertSingle, he, Bool.false_eq_true, if_false, List.cons_append,
      List.cons.injEq, true_and]
    exact ih (fun e' he' => h e' (by simp [he']))

theorem sameEnds_self (a b : Nat) (pr : PropVal) (ss : List ESingle) :
    sameEnds ⟨a, b, pr, ss⟩ a b = true := by
  simp [sameEnds]

theorem insertSingle_found_after (es rest : List ERec) (e1 : ERec)
    (a b : Nat) (s : ESingle)
    (h : ∀ e ∈ es, sameEnds e a b = false) (h1 : sameEnds e1 a b = true) :
    insertSingle (es ++ e1 :: rest) a b s =
      es ++ ⟨e1.src, e1.trg, e1.prop, e1.singles ++ [s]⟩ :: rest := by
  induction es with
  | nil => simp [insertSingle, h1]
  | cons e es' ih =>
    have he := h e (by simp)
    simp only [List.cons_append, insertSingle, he, Bool.false_eq_true, if_false,
      List.cons.injEq, true_and]
    exact ih (fun e' he' => h e' (by simp [he']))

/-- **C5** — A vertex created by `addVertex` is found again by
`getLocalVertex` at its own global id, yielding exactly the local handle the
creation returned, provided the minted id `cnt + 1` is fresh for the
cluster's own vertices (the generator invariant). -/
theorem addVertex_getLocalVertex (t : CTree) (cnt : universalID)
    (h : ∀ p ∈ t.verts, p.2.gid ≠ cnt + 1) :
    getLocalVertex (addVertex t cnt).tree (addVertex t cnt).gv =
      some (addVertex t cnt).lv := by
  cases t with
  | node nl vs es f =>
    simp only [CTree.verts] at h
    have hnone : vs.find? (fun p => p.2.gid == cnt + 1) = none := by
      rw [List.find?_eq_none]
      intro x hx
      simpa using h x hx
    simp [addVertex, getLocalVertex, List.find?_append, hnone]

theorem addVertex_getLocalVertex_witness :
    getLocalVertex (addVertex sampleTree 11).tree (addVertex sampleTree 11).gv =
      some (addVertex sampleTree 11).lv :=
  addVertex_getLocalVertex sampleTree 11 (by decide)

/-- **C9** — `addEdge` on a pair of equal local vertices returns `false` in
its success slot and leaves the cluster tree and the shared counter exactly
as they were: the failed structural operation has no effect. -/
theorem addEdge_selfLoop_noEffect (t : CTree) (cnt : universalID) (a b : Nat)
    (h : a = b) :
    addEdge t cnt a b = ⟨t, cnt, (a, b), invalidGE, false⟩ := by
  subst h
  cases t with
  | node nl vs es f => simp [addEdge]

theorem addEdge_selfLoop_noEffect_witness :
    addEdge sampleTree 11 3 3 = ⟨sampleTree, 11, (3, 3), invalidGE, false⟩ :=
  addEdge_selfLoop_noEffect sampleTree 11 3 3 rfl

/-- **C6** — With `a` and `b` distinct non-cluster vertices of the cluster
and no local edge yet between them, calling `addEdge(a,b)` twice succeeds
both times and produces exactly one local edge between `a` and `b`, holding
two aggregated `GlobalEdge` entries whose ids `cnt+1` and `cnt+2` are
distinct, and `getGlobalEdgeCount` on that local edge returns 2. -/
theorem addEdge_twice_aggregates (t : CTree) (cnt : universalID) (a b : Nat)
    (va vb : VB)
    (hab : a ≠ b)
    (hva : findVB t.verts a = some va)
    (hvb : findVB t.verts b = some vb)
    (hca : lookupF t.subs a = none)
    (hcb : lookupF t.subs b = none)
    (hne : ∀ e ∈ t.edges, sameEnds e a b = false) :
    (addEdge t cnt a b).success = true ∧
      (addEdge (addEdge t cnt a b).tree (addEdge t cnt a b).cnt a b).success
        = true ∧
      ((addEdge (addEdge t cnt a b).tree (addEdge t cnt a b).cnt a
            b).tree.edges).filter (fun e => sameEnds e a b) =
        [⟨a, b, 0, [⟨0, ⟨va.gid, vb.gid, cnt + 1⟩⟩,
          ⟨0, ⟨va.gid, vb.gid, cnt + 2⟩⟩]⟩] ∧
      (cnt + 1 : universalID) ≠ cnt + 2 ∧
      getGlobalEdgeCount
        (addEdge (addEdge t cnt a b).tree (addEdge t cnt a b).cnt a b).tree
        (a, b) = 2 := by
  cases t with
  | node nl vs es f =>
    simp only [CTree.verts, CTree.subs, CTree.edges] at hva hvb hca hcb hne
    have hab' : (a == b) = false := by simpa using hab
    have h1 : insertSingle es a b ⟨0, ⟨va.gid, vb.gid, cnt + 1⟩⟩ =
        es ++ [⟨a, b, 0, [⟨0, ⟨va.gid, vb.gid, cnt + 1⟩⟩]⟩] :=
      insertSingle_not_found es a b _ hne
    have hc : (cnt : Int) + 1 + 1 = cnt + 2 := by ring
    have h2 : insertSingle (es ++ [⟨a, b, 0, [⟨0, ⟨va.gid, vb.gid, cnt + 1⟩⟩]⟩])
        a b ⟨0, ⟨va.gid, vb.gid, cnt + 2⟩⟩ =
        es ++ [⟨a, b, 0, [⟨0, ⟨va.gid, vb.gid, cnt + 1⟩⟩,
          ⟨0, ⟨va.gid, vb.gid, cnt + 2⟩⟩]⟩] := by
      have := insertSingle_found_after es []
        ⟨a, b, 0, [⟨0, ⟨va.gid, vb.gid, cnt + 1⟩⟩]⟩ a b
        ⟨0, ⟨va.gid, vb.gid, cnt + 2⟩⟩ hne (sameEnds_self a b _ _)
      simpa using this
    have hfilter : es.filter (fun e => sameEnds e a b) = [] := by
      rw [List.filter_eq_nil_iff]
      intro e hmem
      simp [hne e hmem]
    have hfind : es.find? (fun e => sameEnds e a b) = none := by
      rw [List.find?_eq_none]
      intro e hmem
      simp [hne e hmem]
    simp only [addEdge, hab', Bool.false_eq_true, if_false, hva, hvb, hca, hcb,
      Option.isSome_none, Bool.or_self, h1, hc, h2]
    refine ⟨trivial, trivial, ?_, ?_, ?_⟩
    · simp [CTree.edges, List.filter_append, hfilter, sameEnds_self]
    · have hlt : (cnt : Int) + 1 < cnt + 2 := by linarith
      exact ne_of_lt hlt
    · simp [getGlobalEdgeCount, CTree.edges, List.find?_append, hfind,
        sameEnds_self]

theorem addEdge_twice_aggregates_witness :
    (addEdge sampleTree 11 0 1).success = true ∧
      (addEdge (addEdge sampleTree 11 0 1).tree (addEdge sampleTree 11 0 1).cnt
          0 1).success = true ∧
      ((addEdge (addEdge sampleTree 11 0 1).tree (addEdge sampleTree 11 0 1).cnt
            0 1).tree.edges).filter (fun e => sameEnds e 0 1) =
        [⟨0, 1, 0, [⟨0, ⟨(10 : Int), 11, 11 + 1⟩⟩, ⟨0, ⟨(10 : Int), 11, 11 + 2⟩⟩]⟩] ∧
      ((11 : universalID) + 1) ≠ 11 + 2 ∧
      getGlobalEdgeCount
        (addEdge (addEdge sampleTree 11 0 1).tree (addEdge sampleTree 11 0 1).cnt
          0 1).tree (0, 1) = 2 :=
  addEdge_twice_aggregates sampleTree 11 0 1 ⟨10, 0⟩ ⟨11, 0⟩ (by decide)
    rfl rfl rfl rfl (by decide)

theorem removeGE_skip (pre rest : List ERec) (g : GlobalEdge)
    (h : ∀ e ∈ pre, hasGE e g = false) :
    removeGE (pre ++ rest) g = pre ++ removeGE rest g := by
  induction pre with
  | nil => rfl
  | cons e pre' ih =>
    have he := h e (by simp)
    simp only [List.cons_append, removeGE, he, Bool.false_eq_true, if_false,
      List.cons.injEq, true_and]
    exact ih (fun e' he' => h e' (by simp [he']))

theorem filter_keeps_non_matching (l : List ESingle) (g : GlobalEdge)
    (h : ∀ s ∈ l, s.ge.eqOp g = false) :
    l.filter (fun s => ! s.ge.eqOp g) = l := by
  rw [List.filter_eq_self]
  intro s hs
  simp [h s hs]

theorem singlesOf_append (l1 l2 : List ERec) :
    singlesOf (l1 ++ l2) = singlesOf l1 ++ singlesOf l2 := by
  induction l1 with
  | nil => rfl
  | cons e rest ih => simp [singlesOf, ih]

/-- The per-cluster step of `removeEdge`, at the cluster whose own edge list
holds the owning local edge: exactly the entry for `g` is dropped, and the
local edge disappears exactly when nothing remains. -/
theorem removeEdge_at_owner (nl : Nat) (vs : List (Nat × VB)) (f : CForest)
    (pre post : List ERec) (e : ERec) (g : GlobalEdge)
    (s1 s2 : List ESingle) (sg : ESingle)
    (hpre : ∀ e' ∈ pre, hasGE e' g = false)
    (hsg : sg.ge.eqOp g = true)
    (hs1 : ∀ s ∈ s1, s.ge.eqOp g = false)
    (hs2 : ∀ s ∈ s2, s.ge.eqOp g = false)
    (he : e.singles = s1 ++ sg :: s2) :
    removeEdge (.node nl vs (pre ++ e :: post) f) g =
      .node nl vs
        (pre ++ (if (s1 ++ s2).isEmpty then post
          else ⟨e.src, e.trg, e.prop, s1 ++ s2⟩ :: post)) f := by
  have hhas : hasGE e g = true := by
    rw [hasGE, he, List.any_eq_true]
    exact ⟨sg, by simp, hsg⟩
  have hcontains : containsGE (pre ++ e :: post) g = true := by
    rw [containsGE, List.any_eq_true]
    exact ⟨e, by simp, hhas⟩
  have hfil : e.singles.filter (fun s => ! s.ge.eqOp g) = s1 ++ s2 := by
    rw [he, List.filter_append, filter_keeps_non_matching s1 g hs1,
      List.filter_cons_of_neg (by simp [hsg]), filter_keeps_non_matching s2 g hs2]
  simp only [removeEdge, hcontains, if_true,
    removeGE_skip pre (e :: post) g hpre]
  simp only [removeGE, hhas, if_true, hfil]

/-- The aggregated list minus the dropped entry is empty exactly when that
entry was the only one. -/
theorem only_entry_iff (e : ERec) (s1 s2 : List ESingle) (sg : ESingle)
    (he : e.singles = s1 ++ sg :: s2) :
    (s1 ++ s2).isEmpty = true ↔ e.singles = [sg] := by
  constructor
  · intro hempty
    rw [List.isEmpty_iff, List.append_eq_nil] at hempty
    rw [he, hempty.1, hempty.2]
    rfl
  · intro hsingle
    rw [he] at hsingle
    have hlen := congrArg List.length hsingle
    simp at hlen
    have h1 : s1 = [] := List.length_eq_zero.mp (by omega)
    have h2 : s2 = [] := List.length_eq_zero.mp (by omega)
    rw [h1, h2]
    rfl

theorem mem_singlesOf_of_mem (es : List ERec) (e1 : ERec) (s : ESingle)
    (he : e1 ∈ es) (hs : s ∈ e1.singles) : s ∈ singlesOf es := by
  induction es with
  | nil => cases he
  | cons e rest ih =>
    rw [singlesOf]
    rcases List.mem_cons.mp he with h | h
    · subst h
      exact List.mem_append_left _ hs
    · exact List.mem_append_right _ (ih h)

theorem containsGE_eq (es : List ERec) (g : GlobalEdge) :
    containsGE es g = (singlesOf es).any (fun s => s.ge.eqOp g) := by
  induction es with
  | nil => rfl
  | cons e rest ih =>
    simp only [containsGE, List.any_cons, singlesOf, List.any_append]
    rw [show (rest.any fun e => hasGE e g) = containsGE rest g from rfl, ih]
    rfl

mutual
theorem treeHasGE_eq : ∀ (t : CTree) (g : GlobalEdge),
    treeHasGE t g = (gedges t).any (fun s => s.ge.eqOp g)
  | .node nl vs es f, g => by
    rw [treeHasGE, gedges, List.any_append, containsGE_eq, forestHasGE_eq f g]

theorem forestHasGE_eq : ∀ (f : CForest) (g : GlobalEdge),
    forestHasGE f g = (gedgesF f).any (fun s => s.ge.eqOp g)
  | .fnil, _ => rfl
  | .fcons k t f, g => by
    rw [forestHasGE, gedgesF, List.any_append, treeHasGE_eq t g,
      forestHasGE_eq f g]
end

theorem treeHasGE_of_countP (t : CTree) (g : GlobalEdge)
    (h : 1 ≤ (gedges t).countP (fun s => s.ge.eqOp g)) :
    treeHasGE t g = true := by
  rw [treeHasGE_eq, List.any_eq_true]
  obtain ⟨a, ha, hpa⟩ := List.countP_pos_iff.mp h
  exact ⟨a, ha, hpa⟩

theorem treeHasGE_of_countP_zero (t : CTree) (g : GlobalEdge)
    (h : (gedges t).countP (fun s => s.ge.eqOp g) = 0) :
    treeHasGE t g = false := by
  rw [treeHasGE_eq, List.any_eq_false]
  intro x hx
  exact List.countP_eq_zero.mp h x hx

theorem lookupF_countGE : ∀ (f : CForest) (k : Nat) (C : CTree)
    (g : GlobalEdge), lookupF f k = some C →
    (gedgesF f).countP (fun s => s.ge.eqOp g) =
      (gedges C).countP (fun s => s.ge.eqOp g) +
        (gedgesF (removeF f k)).countP (fun s => s.ge.eqOp g)
  | .fnil, _, _, _, h => by rw [lookupF] at h; cases h
  | .fcons k2 t f, k, C, g, h => by
    cases hk : (k2 == k) with
    | true =>
      rw [lookupF, hk] at h
      simp only [if_true, Option.some.injEq] at h
      subst h
      rw [removeF, hk]
      simp only [if_true]
      rw [gedgesF, List.countP_append]
    | false =>
      rw [lookupF, hk] at h
      simp only [Bool.false_eq_true, if_false] at h
      rw [removeF, hk]
      simp only [Bool.false_eq_true, if_false]
      rw [gedgesF, gedgesF, List.countP_append, List.countP_append,
        lookupF_countGE f k C g h]
      omega

theorem clusterAt_countGE_le : ∀ (path : List Nat) (t X : CTree)
    (g : GlobalEdge), clusterAt t path = some X →
    (gedges X).countP (fun s => s.ge.eqOp g) ≤
      (gedges t).countP (fun s => s.ge.eqOp g)
  | [], t, X, g, h => by
    rw [clusterAt] at h
    cases h
    exact Nat.le_refl _
  | k :: ks, t, X, g, h => by
    cases t with
    | node nl vs es f =>
      rw [clusterAt] at h
      cases hlk : lookupF f k with
      | none => rw [hlk] at h; cases h
      | some C =>
        rw [hlk] at h
        have h1 := clusterAt_countGE_le ks C X g h
        have h2 := lookupF_countGE f k C g hlk
        rw [gedges, List.countP_append]
        omega

/-- When the whole aggregated content for `g` sits inside the child looked up
under `k`, the recursive removal of `removeEdgeF` reaches exactly that child:
the forest step equals replacing that child by its own removal result. -/
theorem removeEdgeF_guided : ∀ (f0 : CForest) (k : Nat) (C : CTree)
    (g : GlobalEdge), lookupF f0 k = some C →
    1 ≤ (gedges C).countP (fun s => s.ge.eqOp g) →
    (gedgesF f0).countP (fun s => s.ge.eqOp g) ≤
      (gedges C).countP (fun s => s.ge.eqOp g) →
    removeEdgeF f0 g = replaceF f0 k (removeEdge C g)
  | .fnil, k, C, g, h, _, _ => by rw [lookupF] at h; cases h
  | .fcons k2 t f, k, C, g, h, h1, h2 => by
    cases hk : (k2 == k) with
    | true =>
      rw [lookupF, hk] at h
      simp only [if_true, Option.some.injEq] at h
      subst h
      rw [removeEdgeF, treeHasGE_of_countP t g h1]
      rw [replaceF, hk]
      simp
    | false =>
      rw [lookupF, hk] at h
      simp only [Bool.false_eq_true, if_false] at h
      have hd := lookupF_countGE f k C g h
      rw [gedgesF, List.countP_append] at h2
      have ht0 : (gedges t).countP (fun s => s.ge.eqOp g) = 0 := by omega
      rw [removeEdgeF, treeHasGE_of_countP_zero t g ht0]
      rw [replaceF, hk]
      simp only [Bool.false_eq_true, if_false, CForest.fcons.injEq, true_and]
      exact removeEdgeF_guided f k C g h h1 (by omega)

/-- **C7** — For a global edge `g` held by a local edge `e` in an owning
cluster sitting anywhere in the subtree (located by a chain of
cluster-vertex handles), and whose aggregated entry occurs exactly once in
the whole subtree (the pairwise-distinct-ids invariant), `removeEdge(g)`
rewrites the tree at exactly that position: the entry for `g` is dropped
from `e`'s aggregated list, the local edge `e` itself is removed exactly
when `g` was its only aggregated entry, and otherwise `e` persists with all
its remaining aggregated entries intact; every other cluster, vertex and
edge of the tree is untouched. -/
theorem removeEdge_drops_entry_anywhere :
    ∀ (path : List Nat) (t : CTree) (nl : Nat) (vs : List (Nat × VB))
      (f : CForest) (pre post : List ERec) (e : ERec) (g : GlobalEdge)
      (s1 s2 : List ESingle) (sg : ESingle),
    clusterAt t path = some (.node nl vs (pre ++ e :: post) f) →
    (gedges t).countP (fun s => s.ge.eqOp g) = 1 →
    sg.ge.eqOp g = true →
    e.singles = s1 ++ sg :: s2 →
    removeEdge t g =
      replaceAt t path (.node nl vs
        (pre ++ (if (s1 ++ s2).isEmpty then post
          else ⟨e.src, e.trg, e.prop, s1 ++ s2⟩ :: post)) f) ∧
      ((s1 ++ s2).isEmpty = true ↔ e.singles = [sg])
  | [], t, nl, vs, f, pre, post, e, g, s1, s2, sg, hat, huniq, hsg, he => by
    rw [clusterAt] at hat
    cases hat
    have hd : (gedges (CTree.node nl vs (pre ++ e :: post) f)).countP
        (fun s => s.ge.eqOp g) =
        (singlesOf pre).countP (fun s => s.ge.eqOp g) +
          (s1.countP (fun s => s.ge.eqOp g) + 1 +
            s2.countP (fun s => s.ge.eqOp g) +
            (singlesOf post).countP (fun s => s.ge.eqOp g)) +
          (gedgesF f).countP (fun s => s.ge.eqOp g) := by
      rw [gedges, List.countP_append, singlesOf_append,
        show singlesOf (e :: post) = e.singles ++ singlesOf post from rfl,
        List.countP_append, List.countP_append, he, List.countP_append,
        List.countP_cons_of_pos (fun s => s.ge.eqOp g) s2 hsg]
      omega
    rw [hd] at huniq
    have hpre0 : (singlesOf pre).countP (fun s => s.ge.eqOp g) = 0 := by omega
    have hs10 : s1.countP (fun s => s.ge.eqOp g) = 0 := by omega
    have hs20 : s2.countP (fun s => s.ge.eqOp g) = 0 := by omega
    have hpre2 : ∀ e1 ∈ pre, hasGE e1 g = false := by
      intro e1 he1
      rw [hasGE, List.any_eq_false]
      intro s hs
      exact List.countP_eq_zero.mp hpre0 s (mem_singlesOf_of_mem pre e1 s he1 hs)
    have hs12 : ∀ s ∈ s1, s.ge.eqOp g = false := by
      intro s hs
      simpa using List.countP_eq_zero.mp hs10 s hs
    have hs22 : ∀ s ∈ s2, s.ge.eqOp g = false := by
      intro s hs
      simpa using List.countP_eq_zero.mp hs20 s hs
    refine ⟨?_, only_entry_iff e s1 s2 sg he⟩
    rw [replaceAt]
    exact removeEdge_at_owner nl vs f pre post e g s1 s2 sg hpre2 hsg hs12 hs22 he
  | k :: ks, t, nl, vs, f, pre, post, e, g, s1, s2, sg, hat, huniq, hsg, he => by
    cases t with
    | node nl0 vs0 es0 f0 =>
      rw [clusterAt] at hat
      cases hlk : lookupF f0 k with
      | none => rw [hlk] at hat; cases hat
      | some C =>
        rw [hlk] at hat
        have hd := lookupF_countGE f0 k C g hlk
        have hX1 : 1 ≤ (gedges (CTree.node nl vs (pre ++ e :: post) f)).countP
            (fun s => s.ge.eqOp g) := by
          refine List.countP_pos_iff.mpr ⟨sg, ?_, hsg⟩
          rw [gedges]
          refine List.mem_append_left _ ?_
          refine mem_singlesOf_of_mem _ e sg (by simp) ?_
          rw [he]
          simp
        have hle := clusterAt_countGE_le ks C _ g hat
        have htot : (gedges (CTree.node nl0 vs0 es0 f0)).countP
            (fun s => s.ge.eqOp g) =
            (singlesOf es0).countP (fun s => s.ge.eqOp g) +
              (gedgesF f0).countP (fun s => s.ge.eqOp g) := by
          rw [gedges, List.countP_append]
        rw [htot] at huniq
        have hC1 : (gedges C).countP (fun s => s.ge.eqOp g) = 1 := by omega
        have hes0 : (singlesOf es0).countP (fun s => s.ge.eqOp g) = 0 := by
          omega
        have hrest0 : (gedgesF (removeF f0 k)).countP
            (fun s => s.ge.eqOp g) = 0 := by omega
        have hcont : containsGE es0 g = false := by
          rw [containsGE_eq, List.any_eq_false]
          intro x hx
          exact List.countP_eq_zero.mp hes0 x hx
        obtain ⟨ihEq, ihIff⟩ := removeEdge_drops_entry_anywhere ks C nl vs f
          pre post e g s1 s2 sg hat hC1 hsg he
        refine ⟨?_, ihIff⟩
        rw [removeEdge, hcont]
        simp only [Bool.false_eq_true, if_false]
        simp only [replaceAt, hlk]
        rw [removeEdgeF_guided f0 k C g hlk (by omega) (by omega), ihEq]

/-- A concrete tree for the C7 witness: the owning local edge lives inside a
subcluster (path `[2]`), not in the calling cluster's own edge list, so the
recursive descent of `removeEdge` is exercised; the edge aggregates two
entries (ids 21 and 22) and the entry for id 22 is dropped. -/
def removeWitnessTree : CTree :=
  .node 3 [(0, ⟨10, 0⟩), (2, ⟨12, 0⟩)]
    [⟨0, 2, 0, [⟨0, ⟨10, 13, 20⟩⟩]⟩]
    (.fcons 2
      (.node 2 [(0, ⟨13, 0⟩), (1, ⟨14, 0⟩)]
        [⟨0, 1, 0, [⟨0, ⟨13, 14, 21⟩⟩, ⟨0, ⟨13, 14, 22⟩⟩]⟩] .fnil)
      .fnil)

theorem removeEdge_drops_entry_anywhere_witness :
    removeEdge removeWitnessTree ⟨13, 14, 22⟩ =
      replaceAt removeWitnessTree [2]
        (.node 2 [(0, ⟨13, 0⟩), (1, ⟨14, 0⟩)]
          (([] : List ERec) ++
            (if ((([⟨0, ⟨13, 14, 21⟩⟩] : List ESingle) ++ []).isEmpty)
              then ([] : List ERec)
              else ([⟨0, 1, 0,
                ([⟨0, ⟨13, 14, 21⟩⟩] : List ESingle) ++ []⟩] : List ERec)))
          .fnil) ∧
      (((([⟨0, ⟨13, 14, 21⟩⟩] : List ESingle) ++ []).isEmpty = true) ↔
        ([⟨0, ⟨13, 14, 21⟩⟩, ⟨0, ⟨13, 14, 22⟩⟩] : List ESingle) =
          [⟨0, ⟨13, 14, 22⟩⟩]) :=
  removeEdge_drops_entry_anywhere [2] removeWitnessTree 2
    [(0, ⟨13, 0⟩), (1, ⟨14, 0⟩)] .fnil [] []
    ⟨0, 1, 0, [⟨0, ⟨13, 14, 21⟩⟩, ⟨0, ⟨13, 14, 22⟩⟩]⟩ ⟨13, 14, 22⟩
    [⟨0, ⟨13, 14, 21⟩⟩] [] ⟨0, ⟨13, 14, 22⟩⟩
    rfl rfl rfl rfl

end ClusterSpec

namespace ClusterSpec

/-!
## Moving vertices between clusters (§4.7)

`moveToSubcluster` and `moveToParent` are modelled from the specification;
both either succeed, returning the updated subtree and the new local handle
of the moved vertex, or fail (`none`) leaving the tree untouched, per the
transactional requirement of §5.
-/

/-- Modelled from the spec: resolving, inside the destination cluster, the
local vertex that contains one endpoint of an aggregated global edge (the
endpoint that lies in the destination subtree); tries the global source
first, then the global target (§4.7: "the global edge migrates to a local
edge inside the destination"). -/
def resolveIn (C : CTree) (g : GlobalEdge) : Option Nat :=
  match getLocalVertex C g.source with
  | some u => some u
  | none => getLocalVertex C g.target

/-- Modelled from the spec: migrating a list of aggregated entries into the
destination cluster's edge list, each onto the local edge (new or existing)
between the moved vertex's new handle `v1` and the local vertex containing
the other endpoint; fails when an endpoint is unresolvable. -/
def migrate (C0 : CTree) (v1 : Nat) : List ERec → List ESingle →
    Option (List ERec)
  | ced, [] => some ced
  | ced, s :: rest =>
    match resolveIn C0 s.ge with
    | none => none
    | some u => migrate C0 v1 (insertSingle ced v1 u s) rest

/-- Modelled from the spec: re-homing every local edge incident to the moved
vertex `v` (§4.7) — an edge to the destination's cluster-vertex `c` has its
aggregated entries migrated into the destination (accumulator `ca`); an edge
to any other vertex `u` is represented at the common parent by the local edge
between `c` and `u`, never duplicated (accumulator `ra`). -/
def rehomeDown (v c v1 : Nat) (C0 : CTree) :
    List ERec → List ERec → List ERec → Option (List ERec × List ERec)
  | [], ra, ca => some (ra, ca)
  | e :: rest, ra, ca =>
    if otherEnd e v == c then
      match migrate C0 v1 ca e.singles with
      | none => none
      | some ca' => rehomeDown v c v1 C0 rest ra ca'
    else rehomeDown v c v1 C0 rest (insertSingles ra c (otherEnd e v) e.singles) ca

/-- Modelled from the spec: `moveToSubcluster(v, Cluster)` (header lines
991–1006, §4.7) — relocates vertex `v` (ordinary or cluster vertex) of this
cluster into the direct subcluster keyed `c`: a new local vertex there
carries the same global id and property/object values; the old local vertex
is removed from the source; every incident local edge is re-homed with its
aggregated global edges keeping identity; a moved cluster vertex takes its
whole subcluster along.  Fails (`none`) when `v` or `c` is absent or when
`v = c`. -/
def moveToSubcluster (t : CTree) (v c : Nat) : Option (CTree × Nat) :=
  match t with
  | .node nl vs es f =>
    if v == c then none
    else
      match findVB vs v, lookupF f c with
      | some vb, some C =>
        match rehomeDown v c C.nextL C (es.filter (fun e => touches e v))
            (es.filter (fun e => ! touches e v)) C.edges with
        | none => none
        | some (ra, ca) =>
          let csubs : CForest :=
            match lookupF f v with
            | some Tv => .fcons C.nextL Tv C.subs
            | none => C.subs
          some (.node nl (erasePV vs v) ra
            (.fcons c (.node (C.nextL + 1) (C.verts ++ [(C.nextL, vb)]) ca csubs)
              (removeF (removeF f c) v)), C.nextL)
      | _, _ => none

/-- Modelled from the spec: the upward re-homing of `moveToParent` (§4.7) —
each local edge of the parent incident to the subcluster's cluster-vertex `c`
is split: aggregated entries one of whose global endpoints belongs to the
moved vertex (its own id, or its subtree when it is a cluster vertex) move to
the local edge between the new handle `v2` and the other endpoint; the
remaining entries stay; the old local edge disappears when nothing stays. -/
def splitEdges (sc : universalID → Bool) (v2 c : Nat) : List ERec → List ERec
  | [] => []
  | e :: rest =>
    if touches e c then
      let mv := e.singles.filter (fun s => sc s.ge.source || sc s.ge.target)
      let keep := e.singles.filter (fun s => ! (sc s.ge.source || sc s.ge.target))
      let tail := splitEdges sc v2 c rest
      insertSingles
        (if keep.isEmpty then tail else ⟨e.src, e.trg, e.prop, keep⟩ :: tail)
        v2 (otherEnd e c) mv
    else e :: splitEdges sc v2 c rest

/-- Modelled from the spec: `moveToParent(v)` (header lines 1009–1022, §4.7),
expressed on the parent tree: moves vertex `v1` out of the direct subcluster
keyed `c` up into this cluster, as the structural inverse of
`moveToSubcluster` — the new local vertex carries the same global id and
property/object values; edges of the subcluster incident to `v1` are
re-homed onto the parent's local edge between the new handle and `c`; parent
edges at `c` aggregating entries of the moved vertex are split symmetrically;
a moved cluster vertex takes its subcluster along.  Fails (`none`) when `c`
or `v1` is absent. -/
def moveToParent (t : CTree) (c v1 : Nat) : Option (CTree × Nat) :=
  match t with
  | .node nl vs es f =>
    match lookupF f c with
    | none => none
    | some C =>
      match findVB C.verts v1 with
      | none => none
      | some vb =>
        let tvOpt := lookupF C.subs v1
        let sc : universalID → Bool := fun g =>
          g == vb.gid ||
            (match tvOpt with
             | some Tv => containsG Tv g
             | none => false)
        let es2 := insertSingles (splitEdges sc nl c es) nl c
          (singlesOf (C.edges.filter (fun e => touches e v1)))
        let C' : CTree := .node C.nextL (erasePV C.verts v1)
          (C.edges.filter (fun e => ! touches e v1)) (removeF C.subs v1)
        let f' : CForest :=
          match tvOpt with
          | some Tv => .fcons nl Tv (.fcons c C' (removeF f c))
          | none => .fcons c C' (removeF f c)
        some (.node (nl + 1) (vs ++ [(nl, vb)]) es2 f', nl)

/-- Multiset of aggregated entries of a local-edge list. -/
def msing (es : List ERec) : Multiset ESingle :=
  (singlesOf es : Multiset ESingle)

/-- Multiset of `(global id, property value)` pairs of a vertex-bundle list. -/
def mverts (vs : List (Nat × VB)) : Multiset (universalID × PropVal) :=
  (vmap vs : Multiset (universalID × PropVal))

/-- Multiset of all global vertices of a subtree. -/
def mgv (t : CTree) : Multiset (universalID × PropVal) :=
  (gverts t : Multiset (universalID × PropVal))

/-- Multiset of all global vertices of a forest of subtrees. -/
def mgvF (f : CForest) : Multiset (universalID × PropVal) :=
  (gvertsF f : Multiset (universalID × PropVal))

/-- Multiset of all aggregated global edges of a subtree. -/
def mge (t : CTree) : Multiset ESingle :=
  (gedges t : Multiset ESingle)

/-- Multiset of all aggregated global edges of a forest of subtrees. -/
def mgeF (f : CForest) : Multiset ESingle :=
  (gedgesF f : Multiset ESingle)

end ClusterSpec

namespace ClusterSpec

theorem msing_nil : msing [] = 0 := rfl

theorem msing_cons (e : ERec) (l : List ERec) :
    msing (e :: l) = (e.singles : Multiset ESingle) + msing l := by
  simp [msing, singlesOf, Multiset.coe_add]

theorem msing_append (l1 l2 : List ERec) :
    msing (l1 ++ l2) = msing l1 + msing l2 := by
  simp [msing, singlesOf_append, Multiset.coe_add]

theorem mverts_cons (p : Nat × VB) (l : List (Nat × VB)) :
    mverts (p :: l) = (p.2.gid, p.2.prop) ::ₘ mverts l := by
  simp [mverts, vmap, Multiset.cons_coe]

theorem mverts_append (l1 l2 : List (Nat × VB)) :
    mverts (l1 ++ l2) = mverts l1 + mverts l2 := by
  simp [mverts, vmap, Multiset.coe_add]

theorem mgv_eq (t : CTree) : mgv t = mverts t.verts + mgvF t.subs := by
  cases t with
  | node nl vs es f =>
    simp [mgv, mgvF, mverts, gverts, CTree.verts, CTree.subs, Multiset.coe_add]

theorem mgvF_nil : mgvF .fnil = 0 := rfl

theorem mgvF_cons (k : Nat) (t : CTree) (f : CForest) :
    mgvF (.fcons k t f) = mgv t + mgvF f := by
  simp [mgvF, mgv, gvertsF, Multiset.coe_add]

theorem mge_eq (t : CTree) : mge t = msing t.edges + mgeF t.subs := by
  cases t with
  | node nl vs es f =>
    simp [mge, mgeF, msing, gedges, CTree.edges, CTree.subs, Multiset.coe_add]

theorem mgeF_nil : mgeF .fnil = 0 := rfl

theorem mgeF_cons (k : Nat) (t : CTree) (f : CForest) :
    mgeF (.fcons k t f) = mge t + mgeF f := by
  simp [mgeF, mge, gedgesF, Multiset.coe_add]

theorem insertSingle_msing (es : List ERec) (a b : Nat) (s : ESingle) :
    msing (insertSingle es a b s) = msing es + {s} := by
  induction es with
  | nil => simp [insertSingle, msing, singlesOf]
  | cons e rest ih =>
    cases hse : sameEnds e a b with
    | true =>
      simp only [insertSingle, hse, if_true]
      rw [msing_cons, msing_cons]
      simp only [← Multiset.coe_add, Multiset.coe_singleton]
      abel
    | false =>
      simp only [insertSingle, hse, Bool.false_eq_true, if_false]
      rw [msing_cons, msing_cons, ih]
      abel

theorem insertSingles_msing (es : List ERec) (a b : Nat) (ss : List ESingle) :
    msing (insertSingles es a b ss) = msing es + ss := by
  induction ss generalizing es with
  | nil => simp [insertSingles]
  | cons s rest ih =>
    rw [insertSingles, ih, insertSingle_msing]
    simp only [← Multiset.cons_coe, ← Multiset.singleton_add]
    abel

theorem filter_partition_msing (p : ERec → Bool) (es : List ERec) :
    msing (es.filter p) + msing (es.filter (fun e => ! p e)) = msing es := by
  induction es with
  | nil => simp [msing, singlesOf]
  | cons e rest ih =>
    cases hp : p e with
    | true =>
      rw [List.filter_cons_of_pos hp, List.filter_cons_of_neg (by simp [hp]),
        msing_cons, msing_cons, ← ih]
      abel
    | false =>
      rw [List.filter_cons_of_neg (by simp [hp]), List.filter_cons_of_pos (by simp [hp]),
        msing_cons, msing_cons, ← ih]
      abel

theorem filter_partition_coe {α : Type} (p : α → Bool) (l : List α) :
    (l.filter p : Multiset α) + (l.filter (fun x => ! p x) : Multiset α) =
      (l : Multiset α) := by
  rw [Multiset.coe_add, Multiset.coe_eq_coe]
  exact List.filter_append_perm p l

theorem lookupF_none_removeF : ∀ (f : CForest) (k : Nat),
    lookupF f k = none → removeF f k = f
  | .fnil, _, _ => rfl
  | .fcons k2 t f, k, h => by
    cases hk : (k2 == k) with
    | true => rw [lookupF] at h; simp [hk] at h
    | false =>
      rw [lookupF, hk] at h
      simp only [Bool.false_eq_true, if_false] at h
      rw [removeF, hk]
      simp only [Bool.false_eq_true, if_false, CForest.fcons.injEq, true_and]
      exact lookupF_none_removeF f k h

theorem lookupF_removeF_ne : ∀ (f : CForest) (k k2 : Nat), k ≠ k2 →
    lookupF (removeF f k2) k = lookupF f k
  | .fnil, _, _, _ => rfl
  | .fcons k3 t f, k, k2, hne => by
    cases hk : (k3 == k2) with
    | true =>
      rw [removeF, hk]
      simp only [if_true]
      have hk3 : k3 = k2 := by simpa using hk
      have : (k3 == k) = false := by
        simp [hk3]
        exact fun hkk => hne hkk.symm
      rw [lookupF, this]
      simp
    | false =>
      rw [removeF, hk]
      simp only [Bool.false_eq_true, if_false]
      rw [lookupF, lookupF]
      cases hk2 : (k3 == k) with
      | true => simp
      | false =>
        simp only [Bool.false_eq_true, if_false]
        exact lookupF_removeF_ne f k k2 hne

theorem lookupF_mgvF : ∀ (f : CForest) (k : Nat) (T : CTree),
    lookupF f k = some T → mgvF f = mgv T + mgvF (removeF f k)
  | .fnil, _, _, h => by rw [lookupF] at h; cases h
  | .fcons k2 t f, k, T, h => by
    cases hk : (k2 == k) with
    | true =>
      rw [lookupF, hk] at h
      simp only [if_true, Option.some.injEq] at h
      rw [removeF, hk]
      simp only [if_true]
      rw [mgvF_cons, h]
    | false =>
      rw [lookupF, hk] at h
      simp only [Bool.false_eq_true, if_false] at h
      rw [removeF, hk]
      simp only [Bool.false_eq_true, if_false]
      rw [mgvF_cons, mgvF_cons, lookupF_mgvF f k T h]
      abel

theorem lookupF_mgeF : ∀ (f : CForest) (k : Nat) (T : CTree),
    lookupF f k = some T → mgeF f = mge T + mgeF (removeF f k)
  | .fnil, _, _, h => by rw [lookupF] at h; cases h
  | .fcons k2 t f, k, T, h => by
    cases hk : (k2 == k) with
    | true =>
      rw [lookupF, hk] at h
      simp only [if_true, Option.some.injEq] at h
      rw [removeF, hk]
      simp only [if_true]
      rw [mgeF_cons, h]
    | false =>
      rw [lookupF, hk] at h
      simp only [Bool.false_eq_true, if_false] at h
      rw [removeF, hk]
      simp only [Bool.false_eq_true, if_false]
      rw [mgeF_cons, mgeF_cons, lookupF_mgeF f k T h]
      abel

theorem findVB_mverts (vs : List (Nat × VB)) (v : Nat) (vb : VB)
    (h : findVB vs v = some vb) :
    mverts vs = (vb.gid, vb.prop) ::ₘ mverts (erasePV vs v) := by
  induction vs with
  | nil => simp [findVB] at h
  | cons p rest ih =>
    cases hp : (p.1 == v) with
    | true =>
      rw [findVB, @List.find?_cons_of_pos _ (fun q => q.1 == v) p rest hp] at h
      simp at h
      have herase : List.eraseP (fun q => q.1 == v) (p :: rest) = rest :=
        List.eraseP_cons_of_pos hp
      rw [erasePV, herase, mverts_cons, h]
    | false =>
      rw [findVB,
        @List.find?_cons_of_neg _ (fun q => q.1 == v) p rest (by simp [hp])] at h
      have herase : List.eraseP (fun q => q.1 == v) (p :: rest) =
          p :: List.eraseP (fun q => q.1 == v) rest :=
        List.eraseP_cons_of_neg (by simp [hp])
      rw [erasePV, herase, mverts_cons, mverts_cons, ih h, Multiset.cons_swap]
      rfl

theorem migrate_msing : ∀ (C0 : CTree) (v1 : Nat) (ced out : List ERec)
    (ss : List ESingle), migrate C0 v1 ced ss = some out →
    msing out = msing ced + ss
  | _, _, ced, out, [], h => by
    rw [migrate] at h
    cases h
    simp
  | C0, v1, ced, out, s :: rest, h => by
    rw [migrate] at h
    cases hr : resolveIn C0 s.ge with
    | none => rw [hr] at h; cases h
    | some u =>
      rw [hr] at h
      rw [migrate_msing C0 v1 (insertSingle ced v1 u s) out rest h,
        insertSingle_msing]
      simp only [← Multiset.cons_coe, ← Multiset.singleton_add]
      abel

theorem rehomeDown_msing : ∀ (v c v1 : Nat) (C0 : CTree)
    (L ra ca ra2 ca2 : List ERec),
    rehomeDown v c v1 C0 L ra ca = some (ra2, ca2) →
    msing ra2 + msing ca2 = msing L + msing ra + msing ca
  | _, _, _, _, [], ra, ca, ra2, ca2, h => by
    rw [rehomeDown] at h
    cases h
    simp [msing_nil]
  | v, c, v1, C0, e :: rest, ra, ca, ra2, ca2, h => by
    rw [rehomeDown] at h
    cases ho : (otherEnd e v == c) with
    | true =>
      rw [ho] at h
      simp only [if_true] at h
      cases hm : migrate C0 v1 ca e.singles with
      | none => rw [hm] at h; cases h
      | some ca' =>
        rw [hm] at h
        rw [rehomeDown_msing v c v1 C0 rest ra ca' ra2 ca2 h,
          migrate_msing C0 v1 ca ca' e.singles hm, msing_cons]
        abel
    | false =>
      rw [ho] at h
      simp only [Bool.false_eq_true, if_false] at h
      rw [rehomeDown_msing v c v1 C0 rest _ ca ra2 ca2 h,
        insertSingles_msing, msing_cons]
      abel

theorem splitEdges_msing : ∀ (sc : universalID → Bool) (v2 c : Nat)
    (es : List ERec), msing (splitEdges sc v2 c es) = msing es
  | _, _, _, [] => rfl
  | sc, v2, c, e :: rest => by
    rw [splitEdges]
    cases ht : touches e c with
    | true =>
      simp only [ht, if_true]
      rw [insertSingles_msing]
      have hpart := filter_partition_coe
        (fun s => sc s.ge.source || sc s.ge.target) e.singles
      cases hke : (e.singles.filter
          (fun s => ! (sc s.ge.source || sc s.ge.target))).isEmpty with
      | true =>
        have hkeep : e.singles.filter
            (fun s => ! (sc s.ge.source || sc s.ge.target)) = [] := by
          rwa [← List.isEmpty_iff]
        simp only [hke, if_true]
        rw [splitEdges_msing sc v2 c rest, msing_cons]
        rw [hkeep] at hpart
        simp only [Multiset.coe_nil, add_zero] at hpart
        rw [← hpart]
        abel
      | false =>
        simp only [hke, Bool.false_eq_true, if_false]
        rw [msing_cons, msing_cons, splitEdges_msing sc v2 c rest]
        rw [← hpart]
        abel
    | false =>
      simp only [ht, Bool.false_eq_true, if_false]
      rw [msing_cons, msing_cons, splitEdges_msing sc v2 c rest]

theorem mverts_pair (k : Nat) (vb : VB) :
    mverts [(k, vb)] = {(vb.gid, vb.prop)} := by
  rw [mverts_cons]
  rfl

/-- `moveToSubcluster` preserves the multiset of global vertices (with their
property values) and the multiset of aggregated global edges (with their
object values) of the subtree it acts on. -/
theorem mts_preserves (t : CTree) (v c : Nat) (t1 : CTree) (v1 : Nat)
    (h : moveToSubcluster t v c = some (t1, v1)) :
    mgv t1 = mgv t ∧ mge t1 = mge t := by
  cases t with
  | node nl vs es f =>
    rw [moveToSubcluster] at h
    cases hvc : (v == c) with
    | true => rw [hvc] at h; simp at h
    | false =>
      rw [hvc] at h
      simp only [Bool.false_eq_true, if_false] at h
      have hvc' : v ≠ c := by simpa using hvc
      cases hfv : findVB vs v with
      | none =>
        rw [hfv] at h
        cases hlc : lookupF f c with
        | none => rw [hlc] at h; simp at h
        | some C => rw [hlc] at h; simp at h
      | some vb =>
        rw [hfv] at h
        cases hlc : lookupF f c with
        | none => rw [hlc] at h; simp at h
        | some C =>
          cases C with
          | node cnl cvs ces cf =>
            rw [hlc] at h
            simp only [CTree.nextL, CTree.verts, CTree.edges, CTree.subs] at h
            cases hrd : rehomeDown v c cnl (.node cnl cvs ces cf)
                (es.filter (fun e => touches e v))
                (es.filter (fun e => ! touches e v)) ces with
            | none => rw [hrd] at h; simp at h
            | some rc =>
              obtain ⟨ra, ca⟩ := rc
              rw [hrd] at h
              have hreh := rehomeDown_msing v c cnl (.node cnl cvs ces cf)
                (es.filter (fun e => touches e v))
                (es.filter (fun e => ! touches e v)) ces ra ca hrd
              have hpart := filter_partition_msing (fun e => touches e v) es
              have hvb := findVB_mverts vs v vb hfv
              have hC := lookupF_mgvF f c _ hlc
              have hCe := lookupF_mgeF f c _ hlc
              rw [mgv_eq, CTree.verts, CTree.subs] at hC
              rw [mge_eq, CTree.edges, CTree.subs] at hCe
              have hlk : lookupF (removeF f c) v = lookupF f v :=
                lookupF_removeF_ne f v c hvc'
              cases hlv : lookupF f v with
              | some Tv =>
                rw [hlv] at h
                simp only [Option.some.injEq, Prod.mk.injEq] at h
                obtain ⟨ht1, _⟩ := h
                subst ht1
                have hTv : mgvF (removeF f c) =
                    mgv Tv + mgvF (removeF (removeF f c) v) :=
                  lookupF_mgvF (removeF f c) v Tv (by rw [hlk, hlv])
                have hTve : mgeF (removeF f c) =
                    mge Tv + mgeF (removeF (removeF f c) v) :=
                  lookupF_mgeF (removeF f c) v Tv (by rw [hlk, hlv])
                constructor
                · rw [mgv_eq, mgv_eq, CTree.verts, CTree.subs, CTree.verts,
                    CTree.subs, mgvF_cons, mgv_eq, CTree.verts, CTree.subs,
                    mverts_append, mverts_pair, mgvF_cons, hvb, hC, hTv]
                  simp only [← Multiset.singleton_add]
                  abel
                · rw [mge_eq, mge_eq, CTree.edges, CTree.subs, CTree.edges,
                    CTree.subs, mgeF_cons, mge_eq, CTree.edges, CTree.subs,
                    mgeF_cons, hCe, hTve]
                  trans ((msing ra + msing ca) +
                    (mge Tv + (mgeF cf + mgeF (removeF (removeF f c) v))))
                  · abel
                  · rw [hreh, ← hpart]
                    abel
              | none =>
                rw [hlv] at h
                simp only [Option.some.injEq, Prod.mk.injEq] at h
                obtain ⟨ht1, _⟩ := h
                subst ht1
                have hrm : removeF (removeF f c) v = removeF f c :=
                  lookupF_none_removeF (removeF f c) v (by rw [hlk, hlv])
                constructor
                · rw [mgv_eq, mgv_eq, CTree.verts, CTree.subs, CTree.verts,
                    CTree.subs, mgvF_cons, mgv_eq, CTree.verts, CTree.subs,
                    mverts_append, mverts_pair, hvb, hC, hrm]
                  simp only [← Multiset.singleton_add]
                  abel
                · rw [mge_eq, mge_eq, CTree.edges, CTree.subs, CTree.edges,
                    CTree.subs, mgeF_cons, mge_eq, CTree.edges, CTree.subs,
                    hCe, hrm]
                  trans ((msing ra + msing ca) +
                    (mgeF cf + mgeF (removeF f c)))
                  · abel
                  · rw [hreh, ← hpart]
                    abel

theorem mgv_node (nl : Nat) (vs : List (Nat × VB)) (es : List ERec)
    (f : CForest) : mgv (.node nl vs es f) = mverts vs + mgvF f := by
  rw [mgv_eq, CTree.verts, CTree.subs]

theorem mge_node (nl : Nat) (vs : List (Nat × VB)) (es : List ERec)
    (f : CForest) : mge (.node nl vs es f) = msing es + mgeF f := by
  rw [mge_eq, CTree.edges, CTree.subs]

/-- `moveToParent` preserves the multiset of global vertices (with their
property values) and the multiset of aggregated global edges (with their
object values) of the subtree it acts on. -/
theorem mtp_preserves (t : CTree) (c v1 : Nat) (t2 : CTree) (v2 : Nat)
    (h : moveToParent t c v1 = some (t2, v2)) :
    mgv t2 = mgv t ∧ mge t2 = mge t := by
  cases t with
  | node nl vs es f =>
    rw [moveToParent] at h
    cases hlc : lookupF f c with
    | none => rw [hlc] at h; simp at h
    | some C =>
      cases C with
      | node cnl cvs ces cf =>
        rw [hlc] at h
        simp only [CTree.nextL, CTree.verts, CTree.edges, CTree.subs] at h
        cases hfv : findVB cvs v1 with
        | none => rw [hfv] at h; simp at h
        | some vb =>
          rw [hfv] at h
          have hC := lookupF_mgvF f c _ hlc
          have hCe := lookupF_mgeF f c _ hlc
          rw [mgv_node] at hC
          rw [mge_node] at hCe
          have hvb := findVB_mverts cvs v1 vb hfv
          have hpart := filter_partition_msing (fun e => touches e v1) ces
          have hes2 : ∀ sc : universalID → Bool,
              msing (insertSingles (splitEdges sc nl c es) nl c
                (singlesOf (ces.filter (fun e => touches e v1)))) =
              msing es + msing (ces.filter (fun e => touches e v1)) := by
            intro sc
            rw [insertSingles_msing, splitEdges_msing]
            rfl
          cases hlv : lookupF cf v1 with
          | some Tv =>
            rw [hlv] at h
            simp only [Option.some.injEq, Prod.mk.injEq] at h
            obtain ⟨ht2, _⟩ := h
            subst ht2
            have hTv := lookupF_mgvF cf v1 Tv hlv
            have hTve := lookupF_mgeF cf v1 Tv hlv
            constructor
            · rw [mgv_node, mgv_node, mgvF_cons, mgvF_cons, mgv_node,
                mverts_append, mverts_pair, hC, hTv, hvb]
              simp only [← Multiset.singleton_add]
              abel
            · rw [mge_node, mge_node, mgeF_cons, mgeF_cons, mge_node,
                hes2, hCe, hTve, ← hpart]
              abel
          | none =>
            rw [hlv] at h
            simp only [Option.some.injEq, Prod.mk.injEq] at h
            obtain ⟨ht2, _⟩ := h
            subst ht2
            have hrm : removeF cf v1 = cf :=
              lookupF_none_removeF cf v1 hlv
            constructor
            · rw [mgv_node, mgv_node, mgvF_cons, mgv_node,
                mverts_append, mverts_pair, hC, hrm, hvb]
              simp only [← Multiset.singleton_add]
              abel
            · rw [mge_node, mge_node, mgeF_cons, mge_node,
                hes2, hCe, hrm, ← hpart]
              abel

/-- **C8** — For a vertex `v` of a cluster and a direct subcluster keyed `c`,
performing `moveToSubcluster(v, c)` and then `moveToParent` on the returned
handle (both succeeding) restores the original state up to local
descriptors: the set of global vertices together with their property/object
values, and the set of aggregated global edges together with their
property/object values, reachable from the root, are the same as before the
pair of moves. -/
theorem move_roundtrip_preserves (t : CTree) (v c : Nat) (t1 t2 : CTree)
    (v1 v2 : Nat)
    (h1 : moveToSubcluster t v c = some (t1, v1))
    (h2 : moveToParent t1 c v1 = some (t2, v2)) :
    (∀ p, p ∈ gverts t2 ↔ p ∈ gverts t) ∧
      (∀ s, s ∈ gedges t2 ↔ s ∈ gedges t) := by
  obtain ⟨hva, hea⟩ := mts_preserves t v c t1 v1 h1
  obtain ⟨hvb, heb⟩ := mtp_preserves t1 c v1 t2 v2 h2
  constructor
  · intro p
    rw [← Multiset.mem_coe, ← Multiset.mem_coe]
    show p ∈ mgv t2 ↔ p ∈ mgv t
    rw [hvb, hva]
  · intro s
    rw [← Multiset.mem_coe, ← Multiset.mem_coe]
    show s ∈ mge t2 ↔ s ∈ mge t
    rw [heb, hea]

/-- A concrete tree for the round-trip witness: a root with ordinary vertices
(gids 10, 11), a subcluster keyed by cluster-vertex handle 2 (gid 12)
containing a vertex with gid 13, an edge between the two root vertices
(global id 20), and an edge from the root vertex 10 into the subcluster
(global id 21). -/
def moveWitnessTree : CTree :=
  .node 4 [(0, ⟨10, 5⟩), (1, ⟨11, 6⟩), (2, ⟨12, 7⟩)]
    [⟨0, 1, 0, [⟨1, ⟨10, 11, 20⟩⟩]⟩, ⟨0, 2, 0, [⟨2, ⟨10, 13, 21⟩⟩]⟩]
    (.fcons 2 (.node 1 [(0, ⟨13, 8⟩)] [] .fnil) .fnil)

/-- The tree after `moveToSubcluster(0, 2)` on `moveWitnessTree`. -/
def moveWitnessMid : CTree :=
  .node 4 [(1, ⟨11, 6⟩), (2, ⟨12, 7⟩)]
    [⟨2, 1, 0, [⟨1, ⟨10, 11, 20⟩⟩]⟩]
    (.fcons 2
      (.node 2 [(0, ⟨13, 8⟩), (1, ⟨10, 5⟩)] [⟨1, 0, 0, [⟨2, ⟨10, 13, 21⟩⟩]⟩] .fnil)
      .fnil)

/-- The tree after `moveToParent` of the moved vertex on `moveWitnessMid`. -/
def moveWitnessEnd : CTree :=
  .node 5 [(1, ⟨11, 6⟩), (2, ⟨12, 7⟩), (4, ⟨10, 5⟩)]
    [⟨4, 1, 0, [⟨1, ⟨10, 11, 20⟩⟩]⟩, ⟨4, 2, 0, [⟨2, ⟨10, 13, 21⟩⟩]⟩]
    (.fcons 2 (.node 2 [(0, ⟨13, 8⟩)] [] .fnil) .fnil)

theorem moveWitness_step1 :
    moveToSubcluster moveWitnessTree 0 2 = some (moveWitnessMid, 1) := rfl

theorem moveWitness_step2 :
    moveToParent moveWitnessMid 2 1 = some (moveWitnessEnd, 4) := rfl

theorem move_roundtrip_preserves_witness :
    (((10 : universalID), (5 : PropVal)) ∈ gverts moveWitnessEnd ↔
        ((10 : universalID), (5 : PropVal)) ∈ gverts moveWitnessTree) ∧
      ((⟨1, ⟨10, 11, 20⟩⟩ : ESingle) ∈ gedges moveWitnessEnd ↔
        (⟨1, ⟨10, 11, 20⟩⟩ : ESingle) ∈ gedges moveWitnessTree) :=
  ⟨(move_roundtrip_preserves moveWitnessTree 0 2 moveWitnessMid moveWitnessEnd
      1 4 rfl rfl).1 _,
   (move_roundtrip_preserves moveWitnessTree 0 2 moveWitnessMid moveWitnessEnd
      1 4 rfl rfl).2 _⟩

end ClusterSpec
